import Mathlib

/-!
Verification of the Hermite-polynomial / quantum-harmonic-oscillator core of
`qho-plot.ipynb`.

The polynomial objects of the notebook (`np.poly1d`) are embedded as coefficient
lists over `ℚ` in LOWEST-degree-first order (the source stores
highest-first; `np.poly1d([2., 0.])`, i.e. the polynomial 2x, is `[0, 2]`
here).  All coefficients produced by the code are integers, so `ℚ` is an
exact model of the float arithmetic actually performed for the small orders
involved.  Real-valued parts of the code (normalization constants, `exp`,
`sqrt`, the grid) are embedded over `ℝ`.  Python exceptions (`IndexError`
from list indexing/assignment, `ValueError` from `math.factorial` on a
negative argument) are modelled by `Option`, `none` being a raised error.
-/

namespace QHO

/-- Polynomial as coefficient list, lowest degree first. -/
abbrev Poly := List ℚ

/-- Coefficient sum aligning constant terms, as `np.polyadd` does. -/
def polyAdd : Poly → Poly → Poly
  | [], q => q
  | a :: p, [] => a :: p
  | a :: p, b :: q => (a + b) :: polyAdd p q

/-- Scalar multiple of a polynomial, as `scalar * poly1d`. -/
def polySmul (c : ℚ) (p : Poly) : Poly := p.map fun a => c * a

/-- Difference of polynomials: `p - q = p + (-1)·q`, as `np.polysub`. -/
def polySub (p q : Poly) : Poly := polyAdd p (polySmul (-1) q)

/-- Product of polynomials by convolution, as `poly1d * poly1d`. -/
def polyMul : Poly → Poly → Poly
  | [], _ => []
  | a :: p, q => polyAdd (polySmul a q) (0 :: polyMul p q)

/-- Coefficient of `x^i` in `p` (0 beyond the stored length). -/
def coeff (p : Poly) (i : ℕ) : ℚ := p.getD i 0

/-- Evaluation of the embedded polynomial at a real point (Horner form),
as calling a `np.poly1d` object. -/
noncomputable def polyEvalR (p : Poly) (x : ℝ) : ℝ :=
  p.foldr (fun c acc => (c : ℝ) + x * acc) 0

theorem polyEvalR_nil (x : ℝ) : polyEvalR [] x = 0 := rfl

theorem polyEvalR_cons (a : ℚ) (p : Poly) (x : ℝ) :
    polyEvalR (a :: p) x = (a : ℝ) + x * polyEvalR p x := rfl

theorem polyEvalR_polyAdd (p q : Poly) (x : ℝ) :
    polyEvalR (polyAdd p q) x = polyEvalR p x + polyEvalR q x := by
  induction p generalizing q with
  | nil => simp [polyAdd, polyEvalR_nil]
  | cons a p ih =>
    cases q with
    | nil => simp [polyAdd, polyEvalR_nil]
    | cons b q =>
      simp only [polyAdd, polyEvalR_cons, ih]
      push_cast
      ring

theorem polyEvalR_polySmul (c : ℚ) (p : Poly) (x : ℝ) :
    polyEvalR (polySmul c p) x = (c : ℝ) * polyEvalR p x := by
  induction p with
  | nil => simp [polySmul, polyEvalR_nil]
  | cons a p ih =>
    simp only [polySmul, List.map_cons, polyEvalR_cons] at *
    rw [ih]
    push_cast
    ring

theorem polyEvalR_polySub (p q : Poly) (x : ℝ) :
    polyEvalR (polySub p q) x = polyEvalR p x - polyEvalR q x := by
  simp only [polySub, polyEvalR_polyAdd, polyEvalR_polySmul]
  push_cast
  ring

theorem polyEvalR_polyMul (p q : Poly) (x : ℝ) :
    polyEvalR (polyMul p q) x = polyEvalR p x * polyEvalR q x := by
  induction p with
  | nil => simp [polyMul, polyEvalR_nil]
  | cons a p ih =>
    simp only [polyMul, polyEvalR_polyAdd, polyEvalR_polySmul, polyEvalR_cons, ih]
    ring

/-- The physicist-convention Hermite polynomials as the source recurrence computes
them: `H 0 = 1`, `H 1 = 2x`, `H (n+2) = (2x)·H (n+1) - 2(n+1)·H n`,
with `2x` the stored polynomial `Hr[1]`. -/
def hermite : ℕ → Poly
  | 0 => [1]
  | 1 => [0, 2]
  | n + 2 => polySub (polyMul [0, 2] (hermite (n + 1)))
      (polySmul (2 * ((n + 2 : ℕ) - 1 : ℚ)) (hermite n))

theorem hermite_zero : hermite 0 = [1] := rfl

theorem hermite_one : hermite 1 = [0, 2] := rfl

theorem hermite_add_two (n : ℕ) :
    hermite (n + 2) = polySub (polyMul [0, 2] (hermite (n + 1)))
      (polySmul (2 * ((n + 2 : ℕ) - 1 : ℚ)) (hermite n)) := rfl

theorem polyEvalR_X2 (x : ℝ) : polyEvalR [0, 2] x = 2 * x := by
  simp [polyEvalR_cons, polyEvalR_nil]
  ring

theorem coeff_nil (i : ℕ) : coeff [] i = 0 := by
  simp [coeff]

theorem coeff_cons_zero (a : ℚ) (p : Poly) : coeff (a :: p) 0 = a := rfl

theorem coeff_cons_succ (a : ℚ) (p : Poly) (i : ℕ) :
    coeff (a :: p) (i + 1) = coeff p i := rfl

theorem coeff_eq_zero_of_length_le (p : Poly) (i : ℕ) (h : p.length ≤ i) :
    coeff p i = 0 :=
  List.getD_eq_default p 0 h

theorem coeff_polyAdd (p q : Poly) (i : ℕ) :
    coeff (polyAdd p q) i = coeff p i + coeff q i := by
  induction p generalizing q i with
  | nil => simp [polyAdd, coeff_nil]
  | cons a p ih =>
    cases q with
    | nil => simp [polyAdd, coeff_nil]
    | cons b q =>
      cases i with
      | zero => simp [polyAdd, coeff_cons_zero]
      | succ i => simp [polyAdd, coeff_cons_succ, ih]

theorem coeff_polySmul (c : ℚ) (p : Poly) (i : ℕ) :
    coeff (polySmul c p) i = c * coeff p i := by
  induction p generalizing i with
  | nil => simp [polySmul, coeff_nil]
  | cons a p ih =>
    cases i with
    | zero => simp [polySmul, coeff_cons_zero]
    | succ i =>
      simp only [polySmul, List.map_cons, coeff_cons_succ] at *
      exact ih i

theorem coeff_polySub (p q : Poly) (i : ℕ) :
    coeff (polySub p q) i = coeff p i - coeff q i := by
  simp [polySub, coeff_polyAdd, coeff_polySmul]
  ring

theorem polyAdd_length (p q : Poly) :
    (polyAdd p q).length = max p.length q.length := by
  induction p generalizing q with
  | nil => simp [polyAdd]
  | cons a p ih =>
    cases q with
    | nil => simp [polyAdd]
    | cons b q =>
      simp only [polyAdd, List.length_cons, ih]
      omega

theorem polySmul_length (c : ℚ) (p : Poly) :
    (polySmul c p).length = p.length := by
  simp [polySmul]

theorem polySub_length (p q : Poly) :
    (polySub p q).length = max p.length q.length := by
  simp [polySub, polyAdd_length, polySmul_length]

theorem polyMulX2_length (q : Poly) :
    (polyMul [0, 2] q).length = max q.length 1 + 1 := by
  simp only [polyMul, polyAdd_length, polySmul_length, List.length_cons,
    List.length_nil]
  omega

theorem coeff_polyMulX2_zero (q : Poly) : coeff (polyMul [0, 2] q) 0 = 0 := by
  simp only [polyMul, coeff_polyAdd, coeff_polySmul, coeff_cons_zero]
  ring

theorem coeff_singleton_zero_eq_zero (i : ℕ) : coeff [(0 : ℚ)] i = 0 := by
  cases i with
  | zero => rfl
  | succ i => simp [coeff_cons_succ, coeff_nil]

theorem coeff_polyMulX2_succ (q : Poly) (i : ℕ) :
    coeff (polyMul [0, 2] q) (i + 1) = 2 * coeff q i := by
  simp only [polyMul, coeff_polyAdd, coeff_polySmul, coeff_cons_succ,
    coeff_singleton_zero_eq_zero]
  ring

theorem hermite_length : ∀ n : ℕ, (hermite n).length = n + 1 := by
  intro n
  induction n using Nat.strong_induction_on with
  | _ n ih =>
    cases n with
    | zero => rfl
    | succ m =>
      cases m with
      | zero => rfl
      | succ k =>
        have h1 := ih (k + 1) (by omega)
        have h2 := ih k (by omega)
        rw [hermite_add_two, polySub_length, polyMulX2_length, polySmul_length,
          h1, h2]
        omega

theorem hermite_leading_coeff : ∀ n : ℕ, coeff (hermite n) n = 2 ^ n := by
  intro n
  induction n using Nat.strong_induction_on with
  | _ n ih =>
    cases n with
    | zero => rfl
    | succ m =>
      cases m with
      | zero => rfl
      | succ k =>
        have h1 := ih (k + 1) (by omega)
        have hlen : (hermite k).length ≤ k + 2 := by
          rw [hermite_length]
          omega
        rw [hermite_add_two, coeff_polySub, coeff_polySmul]
        have e1 : k + 2 = (k + 1) + 1 := rfl
        rw [e1, coeff_polyMulX2_succ, h1,
          coeff_eq_zero_of_length_le _ _ hlen]
        ring

theorem hermite_coeff_of_gt (n i : ℕ) (h : n < i) : coeff (hermite n) i = 0 := by
  apply coeff_eq_zero_of_length_le
  rw [hermite_length]
  omega

theorem hermite_parity :
    ∀ (n : ℕ) (x : ℝ),
      polyEvalR (hermite n) (-x) = (-1 : ℝ) ^ n * polyEvalR (hermite n) x := by
  intro n
  induction n using Nat.strong_induction_on with
  | _ n ih =>
    cases n with
    | zero =>
      intro x
      simp [hermite_zero, polyEvalR_cons, polyEvalR_nil]
    | succ m =>
      cases m with
      | zero =>
        intro x
        show polyEvalR (hermite 1) (-x) = (-1 : ℝ) ^ (0 + 1) * polyEvalR (hermite 1) x
        rw [hermite_one, polyEvalR_X2, polyEvalR_X2]
        ring
      | succ k =>
        intro x
        show polyEvalR (hermite (k + 2)) (-x)
          = (-1 : ℝ) ^ (k + 2) * polyEvalR (hermite (k + 2)) x
        have h1 := ih (k + 1) (by omega) x
        have h2 := ih k (by omega) x
        rw [hermite_add_two, polyEvalR_polySub, polyEvalR_polySub,
          polyEvalR_polyMul, polyEvalR_polyMul, polyEvalR_polySmul,
          polyEvalR_polySmul, polyEvalR_X2, polyEvalR_X2, h1, h2]
        rw [pow_succ, pow_succ]
        ring

/-- Python list assignment `xs[i] = v` for a non-negative index: `IndexError`
(modelled as `none`) when `i` is out of range. -/
def pySet {α : Type} (xs : List α) (i : ℕ) (v : α) : Option (List α) :=
  if i < xs.length then some (xs.set i v) else none

/-- Python list read `xs[n]` with an `Int` index: negative indices wrap
around from the end; out-of-range raises `IndexError` (`none`). -/
def pyIndex {α : Type} (xs : List α) (n : ℤ) : Option α :=
  if 0 ≤ n then xs[n.toNat]?
  else if 0 ≤ n + xs.length then xs[(n + xs.length).toNat]?
  else none

theorem option_join_some {α : Type} (a : Option α) : (some a).join = a := rfl

theorem option_bind_none {α β : Type} (f : α → Option β) :
    ((none : Option α) >>= f) = none := rfl

theorem option_bind_some {α β : Type} (a : α) (f : α → Option β) :
    (some a >>= f) = f a := rfl

/-- The body of the make_Hr loop `for n in range(2, N+1)`, iterated `k` more
times starting at index `n`: each step reads `Hr[1]`, `Hr[n-1]`, `Hr[n-2]`
(a `None` cell would be a `TypeError`, modelled by `Option.join`) and
assigns `Hr[n] = Hr[1]*Hr[n-1] - 2*(n-1)*Hr[n-2]`. -/
def hrLoop : List (Option Poly) → ℕ → ℕ → Option (List (Option Poly))
  | L, _, 0 => some L
  | L, n, k + 1 => do
    let h1 ← (L[1]?).join
    let hp ← (L[n - 1]?).join
    let hq ← (L[n - 2]?).join
    let L2 ← pySet L n (some (polySub (polyMul h1 hp)
      (polySmul (2 * ((n : ℚ) - 1)) hq)))
    hrLoop L2 (n + 1) k

/-- `make_Hr` from the notebook, with the global maximum order of the script as
an explicit `Int` parameter `M`: start from `Hr = [None] * (M + 1)`, assign
`Hr[0] = poly1d([1.])` and `Hr[1] = poly1d([2., 0.])` (each an `IndexError`
if the list is too short), then run the recurrence loop over
`range(2, M + 1)`. -/
def make_Hr (M : ℤ) : Option (List (Option Poly)) := do
  let Hr0 : List (Option Poly) := List.replicate (M + 1).toNat none
  let Hr1 ← pySet Hr0 0 (some [1])
  let Hr2 ← pySet Hr1 1 (some [0, 2])
  hrLoop Hr2 2 (M - 1).toNat

theorem hermite_eq_step (n : ℕ) (h : 2 ≤ n) :
    hermite n = polySub (polyMul [0, 2] (hermite (n - 1)))
      (polySmul (2 * ((n : ℚ) - 1)) (hermite (n - 2))) := by
  obtain ⟨m, rfl⟩ : ∃ m, n = m + 2 := ⟨n - 2, by omega⟩
  have e1 : m + 2 - 1 = m + 1 := rfl
  have e2 : m + 2 - 2 = m := rfl
  rw [hermite_add_two, e1, e2]

theorem hrLoop_spec :
    ∀ (k n : ℕ) (L : List (Option Poly)),
      2 ≤ n → n + k = L.length →
      (∀ i, i < n → L[i]? = some (some (hermite i))) →
      ∃ L', hrLoop L n k = some L' ∧ L'.length = L.length ∧
        ∀ i, i < L.length → L'[i]? = some (some (hermite i)) := by
  intro k
  induction k with
  | zero =>
    intro n L _ hlen hinv
    exact ⟨L, rfl, rfl, fun i hi => hinv i (by omega)⟩
  | succ k ih =>
    intro n L hn hlen hinv
    have h1 := hinv 1 (by omega)
    have hp := hinv (n - 1) (by omega)
    have hq := hinv (n - 2) (by omega)
    have hlt : n < L.length := by omega
    have hset : pySet L n (some (polySub (polyMul (hermite 1) (hermite (n - 1)))
        (polySmul (2 * ((n : ℚ) - 1)) (hermite (n - 2)))))
        = some (L.set n (some (hermite n))) := by
      rw [pySet, if_pos hlt, hermite_eq_step n hn, hermite_one]
    obtain ⟨L', hrun, hlen', hget'⟩ := ih (n + 1) (L.set n (some (hermite n)))
      (by omega) (by simp [List.length_set]; omega)
      (by
        intro i hi
        rcases Nat.lt_or_ge i n with hin | hin
        · rw [List.getElem?_set_ne (by omega)]
          exact hinv i hin
        · have : i = n := by omega
          subst this
          exact List.getElem?_set_self hlt)
    refine ⟨L', ?_, ?_, ?_⟩
    · simp only [hrLoop]
      rw [h1, hp, hq]
      simp only [option_join_some, option_bind_some]
      rw [hset]
      simp only [option_bind_some]
      exact hrun
    · rw [hlen']
      simp [List.length_set]
    · intro i hi
      apply hget'
      simp [List.length_set]
      omega

theorem make_Hr_spec (M : ℕ) (hM : 1 ≤ M) :
    ∃ fam, make_Hr (M : ℤ) = some fam ∧ fam.length = M + 1 ∧
      ∀ i, i ≤ M → fam[i]? = some (some (hermite i)) := by
  have e0 : ((M : ℤ) + 1).toNat = M + 1 := by omega
  have e1 : ((M : ℤ) - 1).toNat = M - 1 := by omega
  have hlen0 : (List.replicate (M + 1) (none : Option Poly)).length = M + 1 := by
    simp
  have h0 : (0 : ℕ) < M + 1 := by omega
  have h1lt : (1 : ℕ) < M + 1 := by omega
  set L2 : List (Option Poly) :=
    ((List.replicate (M + 1) none).set 0 (some [1])).set 1 (some [0, 2]) with hL2
  have hlen2 : L2.length = M + 1 := by
    simp [hL2]
  obtain ⟨fam, hrun, hlenf, hgetf⟩ := hrLoop_spec (M - 1) 2 L2 (by omega)
    (by omega)
    (by
      intro i hi
      interval_cases i
      · rw [hL2, List.getElem?_set_ne (by omega)]
        exact List.getElem?_set_self (by simp)
      · exact List.getElem?_set_self (by simp; omega))
  refine ⟨fam, ?_, by omega, fun i hi => hgetf i (by omega)⟩
  have c0 : (0 : ℕ) < M + 1 := by omega
  have c1 : (1 : ℕ) < M + 1 := by omega
  simp only [make_Hr, pySet, List.length_replicate, List.length_set, e0, e1,
    if_pos c0, if_pos c1, option_bind_some]
  rw [← hL2]
  exact hrun

/-- The global maximum quantum number of the script, `N = 6`. -/
def N : ℤ := 6

/-- The global `Hr = make_Hr()` of the script, built from the global `N`. -/
def Hr : List (Option Poly) := (make_Hr N).getD []

theorem Hr_spec :
    Hr.length = 7 ∧ ∀ i, i ≤ 6 → Hr[i]? = some (some (hermite i)) := by
  obtain ⟨fam, hfam, hlen, hget⟩ := make_Hr_spec 6 (by norm_num)
  have hN : make_Hr N = some fam := by
    have e : ((6 : ℕ) : ℤ) = N := by norm_num [N]
    rw [← e]
    exact hfam
  constructor
  · simp only [Hr, hN, Option.getD_some]
    omega
  · intro i hi
    simp only [Hr, hN, Option.getD_some]
    exact hget i hi

/-- `get_E` from the notebook: `lambda n: n + 0.5`. -/
noncomputable def get_E (n : ℝ) : ℝ := n + 0.5

/-- `NORM_CONST` from the notebook:
`lambda n: 1./np.sqrt(np.sqrt(np.pi)*2**n*math.factorial(n))`, where
`math.factorial` raises `ValueError` (`none`) on a negative argument. -/
noncomputable def NORM_CONST (n : ℤ) : Option ℝ :=
  if n < 0 then none
  else some (1 / Real.sqrt (Real.sqrt Real.pi * 2 ^ n.toNat
    * (Nat.factorial n.toNat : ℝ)))

/-- `get_psi` from the notebook:
`NORM_CONST(n)*Hr[n](x)*np.exp(-x*x/2.)`, with the factors evaluated left
to right against the global family `Hr` of the script (built with `N = 6`). -/
noncomputable def get_psi (n : ℤ) (t : ℝ) : Option ℝ := do
  let c ← NORM_CONST n
  let cell ← pyIndex Hr n
  let p ← cell
  pure (c * polyEvalR p t * Real.exp (-(t * t) / 2))

/-- `get_turning_points` from the notebook:
`xmax = np.sqrt(2. * get_E(n + 0.5)); return -xmax, xmax`. -/
noncomputable def get_turning_points (n : ℝ) : ℝ × ℝ :=
  (-Real.sqrt (2 * get_E (n + 0.5)), Real.sqrt (2 * get_E (n + 0.5)))

/-- `get_potential` from the notebook: `x**2 / 2`. -/
noncomputable def get_potential (t : ℝ) : ℝ := t ^ 2 / 2

/-- The constant `XPAD_FRAC = 1.3` of the script. -/
noncomputable def XPAD_FRAC : ℝ := 1.3

/-- From the script line `xmin, xmax = get_turning_points(N)`: first component. -/
noncomputable def xmin : ℝ := (get_turning_points (N : ℝ)).1

/-- From the script line `xmin, xmax = get_turning_points(N)`: second component. -/
noncomputable def xmax : ℝ := (get_turning_points (N : ℝ)).2

/-- From the script line `zmin = XPAD_FRAC * xmin`. -/
noncomputable def zmin : ℝ := XPAD_FRAC * xmin

/-- From the script line `zmax = XPAD_FRAC * xmax`. -/
noncomputable def zmax : ℝ := XPAD_FRAC * xmax

/-- `np.linspace(a, b, num)`: `num` evenly spaced points from `a` to `b`,
endpoints included. -/
noncomputable def linspace (a b : ℝ) (num : ℕ) : List ℝ :=
  List.ofFn fun i : Fin num => a + (b - a) * i / (num - 1)

/-- The grid of the script, `x = np.linspace(xmin, xmax, 500)`. -/
noncomputable def x : List ℝ := linspace xmin xmax 500

theorem get_psi_eq (n : ℕ) (hn : n ≤ 6) (t : ℝ) :
    get_psi (n : ℤ) t
      = some ((1 / Real.sqrt (Real.sqrt Real.pi * 2 ^ n
          * (Nat.factorial n : ℝ)))
        * polyEvalR (hermite n) t * Real.exp (-(t * t) / 2)) := by
  obtain ⟨hlen, hget⟩ := Hr_spec
  have hnc : NORM_CONST (n : ℤ)
      = some (1 / Real.sqrt (Real.sqrt Real.pi * 2 ^ n
          * (Nat.factorial n : ℝ))) := by
    rw [NORM_CONST, if_neg (by omega)]
    simp
  have hidx : pyIndex Hr (n : ℤ) = some (some (hermite n)) := by
    rw [pyIndex, if_pos (by omega)]
    have e : ((n : ℤ)).toNat = n := by omega
    rw [e]
    exact hget n hn
  simp only [get_psi]
  rw [hnc, hidx]
  simp only [option_bind_some]
  rfl

/-- C9: `get_E` computes the energy level `n + 1/2` at every argument (in
reduced units where `ħω = 1`); in particular `get_E 0 = 0.5` and
`get_E 3 = 3.5`. -/
theorem C9_energy_levels :
    (∀ n : ℝ, get_E n = n + 1 / 2) ∧ get_E 0 = 0.5 ∧ get_E 3 = 3.5 := by
  refine ⟨fun n => ?_, ?_, ?_⟩ <;> norm_num [get_E]

/-- C1: for every maximum order `M ≥ 1`, the family built by `make_Hr`
satisfies the Hermite recurrence: entry 0 is the constant polynomial 1,
entry 1 is the polynomial 2x, and every entry `2 ≤ n ≤ M` equals
`2x·family[n-1] − 2(n−1)·family[n-2]`, both as an equation on coefficient
sequences and pointwise at every real point. -/
theorem C1_hermite_recurrence (M : ℕ) (hM : 1 ≤ M) :
    ∃ fam, make_Hr (M : ℤ) = some fam ∧
      fam[0]? = some (some [1]) ∧
      fam[1]? = some (some [0, 2]) ∧
      ∀ n, 2 ≤ n → n ≤ M →
        ∃ p q r, fam[n]? = some (some p) ∧ fam[n - 1]? = some (some q) ∧
          fam[n - 2]? = some (some r) ∧
          p = polySub (polyMul [0, 2] q) (polySmul (2 * ((n : ℚ) - 1)) r) ∧
          ∀ t : ℝ, polyEvalR p t
            = 2 * t * polyEvalR q t - 2 * ((n : ℝ) - 1) * polyEvalR r t := by
  obtain ⟨fam, hfam, hlen, hget⟩ := make_Hr_spec M hM
  refine ⟨fam, hfam, ?_, ?_, ?_⟩
  · simpa [hermite_zero] using hget 0 (by omega)
  · simpa [hermite_one] using hget 1 (by omega)
  · intro n h2 hnM
    refine ⟨hermite n, hermite (n - 1), hermite (n - 2),
      hget n hnM, hget (n - 1) (by omega), hget (n - 2) (by omega),
      hermite_eq_step n h2, ?_⟩
    intro t
    rw [hermite_eq_step n h2, polyEvalR_polySub, polyEvalR_polyMul,
      polyEvalR_polySmul, polyEvalR_X2]
    push_cast
    ring

/-- Witness for C1 at the concrete order `M = 2`. -/
theorem C1_hermite_recurrence_witness :
    1 ≤ 2 ∧
    (∃ fam, make_Hr ((2 : ℕ) : ℤ) = some fam ∧
      fam[0]? = some (some [1]) ∧
      fam[1]? = some (some [0, 2]) ∧
      ∀ n : ℕ, 2 ≤ n → n ≤ 2 →
        ∃ p q r, fam[n]? = some (some p) ∧ fam[n - 1]? = some (some q) ∧
          fam[n - 2]? = some (some r) ∧
          p = polySub (polyMul [0, 2] q) (polySmul (2 * ((n : ℚ) - 1)) r) ∧
          ∀ t : ℝ, polyEvalR p t
            = 2 * t * polyEvalR q t - 2 * ((n : ℝ) - 1) * polyEvalR r t) :=
  ⟨by norm_num, C1_hermite_recurrence 2 (by norm_num)⟩

/-- C2: every family entry has exact degree equal to its index: its
coefficient list has length `n + 1`, the degree-`n` coefficient is
`2 ^ n ≠ 0`, and every higher coefficient vanishes. -/
theorem C2_exact_degree (M : ℕ) (hM : 1 ≤ M) :
    ∃ fam, make_Hr (M : ℤ) = some fam ∧
      ∀ n, n ≤ M → ∃ p, fam[n]? = some (some p) ∧
        p.length = n + 1 ∧ coeff p n = 2 ^ n ∧ coeff p n ≠ 0 ∧
        ∀ k, n < k → coeff p k = 0 := by
  obtain ⟨fam, hfam, hlen, hget⟩ := make_Hr_spec M hM
  refine ⟨fam, hfam, fun n hn => ⟨hermite n, hget n hn, hermite_length n,
    hermite_leading_coeff n, ?_, hermite_coeff_of_gt n⟩⟩
  rw [hermite_leading_coeff n]
  exact pow_ne_zero n two_ne_zero

/-- Witness for C2 at the concrete order `M = 2`. -/
theorem C2_exact_degree_witness :
    1 ≤ 2 ∧
    (∃ fam, make_Hr ((2 : ℕ) : ℤ) = some fam ∧
      ∀ n : ℕ, n ≤ 2 → ∃ p, fam[n]? = some (some p) ∧
        p.length = n + 1 ∧ coeff p n = 2 ^ n ∧ coeff p n ≠ 0 ∧
        ∀ k, n < k → coeff p k = 0) :=
  ⟨by norm_num, C2_exact_degree 2 (by norm_num)⟩

/-- C8: the family generated by the script (global `N = 6`) matches the
known closed forms at low degree: entry 2 is the polynomial `4x² − 2` and
entry 3 is the polynomial `8x³ − 12x`, as coefficient sequences and hence
pointwise. -/
theorem C8_low_degree_closed_forms :
    Hr[2]? = some (some ([-2, 0, 4] : Poly)) ∧
    (∀ t : ℝ, polyEvalR [-2, 0, 4] t = 4 * t ^ 2 - 2) ∧
    Hr[3]? = some (some ([0, -12, 0, 8] : Poly)) ∧
    (∀ t : ℝ, polyEvalR [0, -12, 0, 8] t = 8 * t ^ 3 - 12 * t) := by
  obtain ⟨hlen, hget⟩ := Hr_spec
  have h2 := hget 2 (by norm_num)
  have h3 := hget 3 (by norm_num)
  have e2 : hermite 2 = [-2, 0, 4] := by
    have h := hermite_add_two 0
    norm_num [hermite_one, hermite_zero] at h
    rw [h]
    norm_num [polySub, polyMul, polySmul, polyAdd]
  have e3 : hermite 3 = [0, -12, 0, 8] := by
    have h := hermite_add_two 1
    norm_num [hermite_one, e2] at h
    rw [h]
    norm_num [polySub, polyMul, polySmul, polyAdd]
  rw [e2] at h2
  rw [e3] at h3
  refine ⟨h2, ?_, h3, ?_⟩
  · intro t
    simp only [polyEvalR_cons, polyEvalR_nil]
    push_cast
    ring
  · intro t
    simp only [polyEvalR_cons, polyEvalR_nil]
    push_cast
    ring

/-- C10: parity — for every `n ≤ 6`, the generated family entry `n`
satisfies `H(−t) = (−1)ⁿ·H(t)` at every real point, and consequently
`get_psi n (−t) = (−1)ⁿ·get_psi n t`: even-indexed wavefunctions are even
functions and odd-indexed ones are odd. -/
theorem C10_parity :
    (∀ n : ℕ, n ≤ 6 → ∀ t : ℝ, ∃ p, Hr[n]? = some (some p) ∧
      polyEvalR p (-t) = (-1 : ℝ) ^ n * polyEvalR p t) ∧
    (∀ n : ℕ, n ≤ 6 → ∀ t : ℝ, ∃ a, get_psi (n : ℤ) t = some a ∧
      get_psi (n : ℤ) (-t) = some ((-1 : ℝ) ^ n * a)) := by
  obtain ⟨hlen, hget⟩ := Hr_spec
  constructor
  · intro n hn t
    exact ⟨hermite n, hget n hn, hermite_parity n t⟩
  · intro n hn t
    refine ⟨_, get_psi_eq n hn t, ?_⟩
    rw [get_psi_eq n hn (-t), hermite_parity]
    have e : -t * -t = t * t := by ring
    rw [e]
    refine congrArg some ?_
    ring

/-- Witness for C10 at `n = 2` (even entry) and `n = 1, t = 1` (odd
wavefunction). -/
theorem C10_parity_witness :
    ((2 : ℕ) ≤ 6 ∧ (∃ p, Hr[2]? = some (some p) ∧
      polyEvalR p (-(1 : ℝ)) = (-1 : ℝ) ^ 2 * polyEvalR p 1)) ∧
    ((1 : ℕ) ≤ 6 ∧ (∃ a, get_psi ((1 : ℕ) : ℤ) 1 = some a ∧
      get_psi ((1 : ℕ) : ℤ) (-1) = some ((-1 : ℝ) ^ 1 * a))) :=
  ⟨⟨by norm_num, C10_parity.1 2 (by norm_num) 1⟩,
   ⟨by norm_num, C10_parity.2 1 (by norm_num) 1⟩⟩

/-- The wavefunction formula as the spec words it (for the refinement
claim C4): `ψₙ(t) = Nₙ·Hₙ(t)·exp(−t²/2)` with the normalization constant
`Nₙ = 1/√(√π·2ⁿ·n!)` and `Hₙ` the degree-`n` member of the polynomial
family. -/
noncomputable def psiSpec (n : ℕ) (t : ℝ) : ℝ :=
  1 / Real.sqrt (Real.sqrt Real.pi * 2 ^ n * (Nat.factorial n : ℝ))
    * polyEvalR (hermite n) t * Real.exp (-t ^ 2 / 2)

/-- C4: for every quantum number `0 ≤ n ≤ 6` and every point, the function
`get_psi` returns exactly the formula of the spec, `Nₙ·Hₙ(t)·exp(−t²/2)`. -/
theorem C4_psi_formula (n : ℕ) (hn : n ≤ 6) (t : ℝ) :
    get_psi (n : ℤ) t = some (psiSpec n t) := by
  rw [get_psi_eq n hn t, psiSpec]
  have e : -(t * t) / 2 = -t ^ 2 / 2 := by ring
  rw [e]

/-- Witness for C4 at `n = 3`, `t = 1`. -/
theorem C4_psi_formula_witness :
    (3 : ℕ) ≤ 6 ∧ get_psi ((3 : ℕ) : ℤ) 1 = some (psiSpec 3 1) :=
  ⟨by norm_num, C4_psi_formula 3 (by norm_num) 1⟩

/-- C5: with the family built for the global `N = 6`, the ground state
at the origin is `get_psi 0 0 = π^(−1/4)`, a strictly positive value, and
the first excited state at the origin is `get_psi 1 0 = 0` exactly. -/
theorem C5_origin_values :
    get_psi 0 0 = some (Real.pi ^ (-(1 / 4) : ℝ)) ∧
    0 < Real.pi ^ (-(1 / 4) : ℝ) ∧
    get_psi 1 0 = some 0 := by
  have h0 := get_psi_eq 0 (by norm_num) 0
  have h1 := get_psi_eq 1 (by norm_num) 0
  have e0 : ((0 : ℕ) : ℤ) = (0 : ℤ) := by norm_num
  have e1 : ((1 : ℕ) : ℤ) = (1 : ℤ) := by norm_num
  rw [e0] at h0
  rw [e1] at h1
  refine ⟨?_, Real.rpow_pos_of_pos Real.pi_pos _, ?_⟩
  · rw [h0]
    refine congrArg some ?_
    rw [hermite_zero]
    have ev : polyEvalR [1] (0 : ℝ) = 1 := by
      simp [polyEvalR_cons, polyEvalR_nil]
    rw [ev]
    norm_num [Nat.factorial]
    rw [Real.sqrt_eq_rpow, Real.sqrt_eq_rpow, ← Real.rpow_mul Real.pi_pos.le,
      Real.rpow_neg Real.pi_pos.le, one_div]
    norm_num
  · rw [h1]
    refine congrArg some ?_
    rw [hermite_one, polyEvalR_X2]
    ring

/-- C6: invalid inputs surface as immediate failures: `make_Hr` raises
(returns `none`) for every negative maximum order, and `get_psi` raises
for every quantum number outside the generated range `0..6` — negative
arguments fail in `NORM_CONST` via `math.factorial`, arguments above 6
fail indexing `Hr`. -/
theorem C6_invalid_inputs :
    (∀ M : ℤ, M < 0 → make_Hr M = none) ∧
    (∀ n : ℤ, n < 0 ∨ 6 < n → ∀ t : ℝ, get_psi n t = none) := by
  obtain ⟨hlen, hget⟩ := Hr_spec
  constructor
  · intro M hM
    have e : (M + 1).toNat = 0 := by omega
    simp [make_Hr, e, pySet, option_bind_none]
  · intro n hn t
    rcases hn with hneg | hbig
    · simp only [get_psi, NORM_CONST, if_pos hneg]
      rfl
    · simp only [get_psi, NORM_CONST, if_neg (by omega : ¬n < 0),
        option_bind_some]
      have hidx : pyIndex Hr n = none := by
        rw [pyIndex, if_pos (by omega)]
        apply List.getElem?_eq_none
        omega
      rw [hidx]
      rfl

/-- Witness for C6: `make_Hr (-1)`, `get_psi (-1) 0` and `get_psi 7 0`
all fail. -/
theorem C6_invalid_inputs_witness :
    make_Hr (-1) = none ∧ get_psi (-1) 0 = none ∧ get_psi 7 0 = none :=
  ⟨C6_invalid_inputs.1 (-1) (by norm_num),
   C6_invalid_inputs.2 (-1) (Or.inl (by norm_num)) 0,
   C6_invalid_inputs.2 7 (Or.inr (by norm_num)) 0⟩

/-- C3 (code evaluation at the failing input): `get_turning_points`
computes `±√(2·get_E(n + 0.5))`, so at `n = 0` it returns `±√2`, which is
not the `±√(2·(0 + 0.5)) = ±1` that the claim (and the docstring of the
function itself) require. -/
theorem C3_turning_points_bug :
    (∀ n : ℝ, get_turning_points n
      = (-Real.sqrt (2 * n + 2), Real.sqrt (2 * n + 2))) ∧
    get_turning_points 0 = (-Real.sqrt 2, Real.sqrt 2) ∧
    Real.sqrt 2 ≠ Real.sqrt (2 * (0 + 0.5)) := by
  refine ⟨?_, ?_, ?_⟩
  · intro n
    rw [get_turning_points]
    have e : 2 * get_E (n + 0.5) = 2 * n + 2 := by
      rw [get_E]
      norm_num
      ring
    rw [e]
  · rw [get_turning_points]
    norm_num [get_E]
  · intro h
    rw [show (2 * (0 + 0.5) : ℝ) = 1 by norm_num, Real.sqrt_one,
      Real.sqrt_eq_one] at h
    norm_num at h

theorem linspace_get (a b : ℝ) (num i : ℕ) (h : i < num) :
    (linspace a b num)[i]? = some (a + (b - a) * i / (num - 1)) := by
  rw [linspace, List.getElem?_ofFn, List.ofFnNthVal, dif_pos h]

/-- C7 (counterexample): the first sample point of the grid is `xmin` itself,
not the padded value `zmin = XPAD_FRAC * xmin`; the two differ because
`xmin = −√14 ≠ 0`. -/
theorem C7_grid_counterexample :
    x[0]? = some xmin ∧ xmin ≠ zmin := by
  have hx : xmin = -Real.sqrt 14 := by
    rw [xmin, get_turning_points]
    norm_num [get_E, N]
  have h14 : (0 : ℝ) < Real.sqrt 14 := Real.sqrt_pos.mpr (by norm_num)
  constructor
  · rw [x, linspace_get _ _ _ _ (by norm_num)]
    refine congrArg some ?_
    norm_num
  · rw [hx, zmin, XPAD_FRAC, hx]
    intro h
    nlinarith [h14]

/-- C7 (amended): the grid spans exactly the interval from `xmin` to
`xmax` returned by `get_turning_points(N)`, without padding; the
`XPAD_FRAC` padding enters only the derived axis limits `zmin`, `zmax`. -/
theorem C7_grid_amended :
    x.length = 500 ∧ x[0]? = some xmin ∧ x[499]? = some xmax ∧
    zmin = XPAD_FRAC * xmin ∧ zmax = XPAD_FRAC * xmax := by
  refine ⟨?_, ?_, ?_, rfl, rfl⟩
  · rw [x, linspace, List.length_ofFn]
  · rw [x, linspace_get _ _ _ _ (by norm_num)]
    refine congrArg some ?_
    norm_num
  · rw [x, linspace_get _ _ _ _ (by norm_num)]
    refine congrArg some ?_
    norm_num

end QHO
